import Mathlib

/-! SaferStringView

A shallow embedding of `SaferStringView.hpp` (the class template
`SaferStringView<T>`) and of the parts of `TestSuite.cpp` that inspect it.

The class stores a `std::variant<std::basic_string<T>, std::basic_string_view<T>>`.
Its behaviour is the behaviour of that variant, so the embedding has three
layers:

* a block memory holding the character buffers (what pointers point at);
* the standard-library values the header uses, with the semantics the C++
  standard gives them: `basic_string_view` (pointer and length),
  `basic_string` (owner of one buffer) and the two-alternative variant;
* the class itself: four constructors, the conversion operator and the
  defaulted copy and move operations.

Code units are the elements of a type `T` with a zero (the terminator `T()`).
Undefined behaviour (reading storage that is gone, scanning a buffer that has
no terminator) is the result `none`.
-/

namespace SSV

/-! ## Memory -/

/-- A pointer to a code unit: the storage block it points into and the offset
    within that block. -/
structure Ptr where
  block : Nat
  off : Nat
deriving DecidableEq, Repr

/-- The character storage of a running program: block `b` is either live, with
    its code units, or gone (`none`). Blocks are never reused. -/
structure Memory (T : Type) where
  blocks : List (Option (List T))
deriving DecidableEq, Repr

namespace Memory

variable {T : Type}

/-- The units of block `b`, when the block is live. -/
def load (m : Memory T) (b : Nat) : Option (List T) :=
  match m.blocks[b]? with
  | some (some buf) => some buf
  | _ => none

/-- Obtain a new block holding `buf`: the new memory and the block. -/
def alloc (m : Memory T) (buf : List T) : Memory T × Nat :=
  (⟨m.blocks ++ [some buf]⟩, m.blocks.length)

/-- Release block `b`. -/
def free (m : Memory T) (b : Nat) : Memory T :=
  ⟨m.blocks.set b none⟩

/-- Overwrite block `b` with `buf`. -/
def store (m : Memory T) (b : Nat) (buf : List T) : Memory T :=
  ⟨m.blocks.set b (some buf)⟩

/-- Read `n` units starting at `p`; `none` when the block is gone or the range
    leaves the block. -/
def read (m : Memory T) (p : Ptr) (n : Nat) : Option (List T) :=
  match m.load p.block with
  | some buf => if p.off + n ≤ buf.length then some ((buf.drop p.off).take n) else none
  | none => none

end Memory

/-- The scan of `std::char_traits<T>::length`: the index of the first
    terminator unit; `none` when the units run out before a terminator. -/
def scanTerminator {T : Type} [DecidableEq T] [Zero T] : List T → Option Nat
  | [] => none
  | x :: xs => if x = 0 then some 0 else (scanTerminator xs).map (· + 1)

/-- The call `std::char_traits<T>::length(p)`: scan from `p` to the terminator. -/
def charTraitsLength {T : Type} [DecidableEq T] [Zero T] (m : Memory T) (p : Ptr) :
    Option Nat :=
  match m.load p.block with
  | some buf => scanTerminator (buf.drop p.off)
  | none => none

/-! ## `std::basic_string_view<T>` -/

/-- A `std::basic_string_view<T>`: `data()` and `size()`. -/
structure StringView where
  data : Ptr
  size : Nat
deriving DecidableEq, Repr

/-- The units a view denotes in memory `m`. -/
def StringView.contents {T : Type} (v : StringView) (m : Memory T) : Option (List T) :=
  m.read v.data v.size

/-- The constructor `basic_string_view(const T* s)`: a view from `s` of length
    `char_traits<T>::length(s)`. -/
def StringView.ofCStr {T : Type} [DecidableEq T] [Zero T] (m : Memory T) (p : Ptr) :
    Option StringView :=
  (charTraitsLength m p).map fun n => ⟨p, n⟩

/-! ## `std::basic_string<T>` -/

/-- A `std::basic_string<T>`: the buffer it owns and `size()`. `data()` is the
    start of the buffer. -/
structure BasicString where
  block : Nat
  size : Nat
deriving DecidableEq, Repr

/-- What a moved-from string is left with. The standard leaves it valid but
    unspecified, and leaves open whether the buffer changes hands (`steal`) or
    the units are copied to the destination's own buffer (short strings kept
    inside the object); `residue` is the content the source is left with. -/
structure MovedFrom (T : Type) where
  steal : Bool
  residue : List T
deriving DecidableEq, Repr

namespace BasicString

variable {T : Type}

/-- The conversion `basic_string::operator basic_string_view`: `data()`, `size()`. -/
def view (s : BasicString) : StringView :=
  ⟨⟨s.block, 0⟩, s.size⟩

/-- The units the string holds in memory `m`. -/
def contents (s : BasicString) (m : Memory T) : Option (List T) :=
  s.view.contents m

/-- Copy constructor: a new buffer with the same units and a terminator. -/
def copy [Zero T] (m : Memory T) (src : BasicString) : Option (Memory T × BasicString) :=
  match src.contents m with
  | some S => some ((m.alloc (S ++ [0])).1, ⟨(m.alloc (S ++ [0])).2, S.length⟩)
  | none => none

/-- Move constructor: the new memory, the constructed string and the
    moved-from source. -/
def move [Zero T] (m : Memory T) (src : BasicString) (o : MovedFrom T) :
    Option (Memory T × BasicString × BasicString) :=
  if o.steal then
    some ((m.alloc (o.residue ++ [0])).1, src,
      ⟨(m.alloc (o.residue ++ [0])).2, o.residue.length⟩)
  else
    match src.contents m with
    | some S =>
      some (((m.alloc (S ++ [0])).1).store src.block (o.residue ++ [0]),
        ⟨(m.alloc (S ++ [0])).2, S.length⟩, ⟨src.block, o.residue.length⟩)
    | none => none

/-- Copy assignment `dst = src`: the units of `src` are written to the buffer
    of `dst`. -/
def assign [Zero T] (m : Memory T) (dst src : BasicString) :
    Option (Memory T × BasicString) :=
  match src.contents m with
  | some S => some (m.store dst.block (S ++ [0]), ⟨dst.block, S.length⟩)
  | none => none

/-- Move assignment `dst = std::move(src)`: the new memory, the assigned
    string and the moved-from source. -/
def moveAssign [Zero T] (m : Memory T) (dst src : BasicString) (o : MovedFrom T) :
    Option (Memory T × BasicString × BasicString) :=
  if o.steal then
    some (((m.free dst.block).alloc (o.residue ++ [0])).1, src,
      ⟨((m.free dst.block).alloc (o.residue ++ [0])).2, o.residue.length⟩)
  else
    match src.contents m with
    | some S =>
      some ((m.store dst.block (S ++ [0])).store src.block (o.residue ++ [0]),
        ⟨dst.block, S.length⟩, ⟨src.block, o.residue.length⟩)
    | none => none

/-- Destructor: the buffer is released. -/
def destroy (m : Memory T) (s : BasicString) : Memory T :=
  m.free s.block

end BasicString

/-! ## The class -/

/-- The member type `std::variant<std::basic_string<T>, std::basic_string_view<T>>`. -/
inductive Storage where
  | str (s : BasicString)
  | view (v : StringView)
deriving DecidableEq, Repr

end SSV

/-- The class `SaferStringView<T>`: its only member is `storage_`. -/
structure SaferStringView where
  storage_ : SSV.Storage
deriving DecidableEq, Repr

namespace SaferStringView

open SSV

variable {T : Type}

/-- Constructor `explicit SaferStringView(const std::basic_string<T> &str)`:
    `storage_(std::basic_string_view<T>(str))`. -/
def ofLvalue (str : BasicString) : SaferStringView :=
  ⟨.view str.view⟩

/-- Constructor `explicit SaferStringView(std::basic_string<T> &&str)`:
    `storage_(std::move(str))`. Returns the new memory, the instance and the
    moved-from argument. -/
def ofRvalue [Zero T] (m : Memory T) (str : BasicString) (o : MovedFrom T) :
    Option (Memory T × SaferStringView × BasicString) :=
  match str.move m o with
  | some (m1, s, str1) => some (m1, ⟨.str s⟩, str1)
  | none => none

/-- Constructor `explicit SaferStringView(std::basic_string_view<T> view)`:
    `storage_(view)`. -/
def ofView (view : StringView) : SaferStringView :=
  ⟨.view view⟩

/-- Constructor `explicit SaferStringView(const T *str)`:
    `storage_(std::basic_string_view<T>(str))`. -/
def ofCStr [DecidableEq T] [Zero T] (m : Memory T) (str : Ptr) : Option SaferStringView :=
  match StringView.ofCStr m str with
  | some v => some ⟨.view v⟩
  | none => none

/-- The conversion `operator std::basic_string_view<T>`: `std::visit` with a
    visitor that returns the active alternative converted to a view. -/
def toStringView (self : SaferStringView) : StringView :=
  match self.storage_ with
  | .str val => val.view
  | .view val => val

/-- The units read through the converted view in memory `m`. -/
def contents (self : SaferStringView) (m : Memory T) : Option (List T) :=
  self.toStringView.contents m

/-- Helper `OwnsData` of `TestSuite.cpp`:
    `std::holds_alternative<std::basic_string<T>>(ssv.storage_)`. -/
def OwnsData (ssv : SaferStringView) : Bool :=
  match ssv.storage_ with
  | .str _ => true
  | .view _ => false

/-- Defaulted copy constructor: the variant copy-constructs the alternative
    `other` holds. -/
def copyConstruct [Zero T] (m : Memory T) (other : SaferStringView) :
    Option (Memory T × SaferStringView) :=
  match other.storage_ with
  | .str s =>
    match s.copy m with
    | some (m1, s1) => some (m1, ⟨.str s1⟩)
    | none => none
  | .view v => some (m, ⟨.view v⟩)

/-- Defaulted move constructor: the variant move-constructs the alternative
    `other` holds; `other` keeps its alternative. Returns the new memory, the
    constructed instance and the moved-from `other`. -/
def moveConstruct [Zero T] (m : Memory T) (other : SaferStringView) (o : MovedFrom T) :
    Option (Memory T × SaferStringView × SaferStringView) :=
  match other.storage_ with
  | .str s =>
    match s.move m o with
    | some (m1, s1, s2) => some (m1, ⟨.str s1⟩, ⟨.str s2⟩)
    | none => none
  | .view v => some (m, ⟨.view v⟩, ⟨.view v⟩)

/-- Destructor: the variant destroys the alternative it holds. -/
def destroy (m : Memory T) (self : SaferStringView) : Memory T :=
  match self.storage_ with
  | .str s => s.destroy m
  | .view _ => m

/-- Defaulted move assignment `self = std::move(other)`, the variant's:
    same alternative on both sides assigns the contained value; otherwise the
    value of `self` is destroyed and the alternative of `other` is
    move-constructed in its place. Returns the new memory, the new `self` and
    the moved-from `other`. -/
def moveAssign [Zero T] (m : Memory T) (self other : SaferStringView) (o : MovedFrom T) :
    Option (Memory T × SaferStringView × SaferStringView) :=
  match self.storage_, other.storage_ with
  | .str d, .str s =>
    match d.moveAssign m s o with
    | some (m1, d1, s1) => some (m1, ⟨.str d1⟩, ⟨.str s1⟩)
    | none => none
  | .view _, .view v => some (m, ⟨.view v⟩, ⟨.view v⟩)
  | .str d, .view v => some (d.destroy m, ⟨.view v⟩, ⟨.view v⟩)
  | .view _, .str s =>
    match s.move m o with
    | some (m1, s1, s2) => some (m1, ⟨.str s1⟩, ⟨.str s2⟩)
    | none => none

/-- Defaulted copy assignment `self = other`, the variant's: same alternative
    on both sides assigns the contained value; a view replaces a string after
    the string is destroyed; a string replaces a view through a temporary copy
    that is moved in and then destroyed (the string's copy constructor may
    throw, its move constructor may not). -/
def copyAssign [Zero T] (m : Memory T) (self other : SaferStringView) (o : MovedFrom T) :
    Option (Memory T × SaferStringView) :=
  match self.storage_, other.storage_ with
  | .str d, .str s =>
    match d.assign m s with
    | some (m1, d1) => some (m1, ⟨.str d1⟩)
    | none => none
  | .view _, .view v => some (m, ⟨.view v⟩)
  | .str d, .view v => some (d.destroy m, ⟨.view v⟩)
  | .view _, .str s =>
    match s.copy m with
    | some (m1, tmp) =>
      match tmp.move m1 o with
      | some (m2, s1, tmp1) => some (tmp1.destroy m2, ⟨.str s1⟩)
      | none => none
    | none => none

/-- The buffer test: `b` is the block of the string `x` owns. -/
def owns (x : SaferStringView) (b : Nat) : Bool :=
  match x.storage_ with
  | .str s => decide (s.block = b)
  | .view _ => false

/-! ## What may happen afterwards

The frame properties of the class speak of what later happens to storage and
to other instances. Two vocabularies make that precise: events on the
storage itself, and the operations of the class applied to an instance. -/

/-- One thing that happens to the character storage: a block is released,
    a block is overwritten, a new block is obtained. -/
inductive Event (T : Type) where
  | free (b : Nat)
  | store (b : Nat) (buf : List T)
  | alloc (buf : List T)
deriving DecidableEq, Repr

/-- The memory after the event. -/
def Event.apply (m : Memory T) : Event T → Memory T
  | .free b => m.free b
  | .store b buf => m.store b buf
  | .alloc buf => (m.alloc buf).1

/-- The event releases or overwrites block `b`. -/
def Event.touches (b : Nat) : Event T → Bool
  | .free c => decide (c = b)
  | .store c _ => decide (c = b)
  | .alloc _ => false

/-- The memory after a sequence of events. -/
def after (m : Memory T) (evs : List (Event T)) : Memory T :=
  evs.foldl Event.apply m

/-- One thing that later happens to an instance `x`: it is destroyed, it is the
    source of a move construction, it is move-assigned to `e`, or it is
    reassigned from `t` by copy or by move. -/
inductive Later (T : Type) where
  | destroyed
  | movedFrom (o : MovedFrom T)
  | movedInto (e : SaferStringView) (o : MovedFrom T)
  | copyAssigned (t : SaferStringView) (o : MovedFrom T)
  | moveAssigned (t : SaferStringView) (o : MovedFrom T)
deriving DecidableEq, Repr

/-- The instance can be operated on: the buffer of an owned instance is
    there and holds its units. A borrowed instance owns nothing, and no
    operation of the class reads through its view. -/
def alive (m : Memory T) (x : SaferStringView) : Bool :=
  match x.storage_ with
  | .str s => (s.contents m).isSome
  | .view _ => true

/-- Both instances are owned and hold the same buffer: they are one object. -/
def sameBuffer (x y : SaferStringView) : Bool :=
  match x.storage_, y.storage_ with
  | .str s, .str t => decide (s.block = t.block)
  | _, _ => false

/-- The effect of `op` on `x`: the memory afterwards and what `x` is then
    (`none` once it is destroyed). -/
def Later.step [Zero T] (m : Memory T) (x : SaferStringView) :
    Later T → Option (Memory T × Option SaferStringView)
  | .destroyed => some (x.destroy m, none)
  | .movedFrom o => (moveConstruct m x o).map fun r => (r.1, some r.2.2)
  | .movedInto e o => (moveAssign m e x o).map fun r => (r.1, some r.2.2)
  | .copyAssigned t o => (copyAssign m x t o).map fun r => (r.1, some r.2)
  | .moveAssigned t o => (moveAssign m x t o).map fun r => (r.1, some r.2.1)

/-- The memory after the operations `ops` have happened to `x`, one after the
    other; nothing can happen to an instance that is already destroyed. -/
def runAll [Zero T] : Memory T → Option SaferStringView → List (Later T) → Option (Memory T)
  | m, _, [] => some m
  | _, none, _ :: _ => none
  | m, some x, op :: ops =>
    match op.step m x with
    | some (m1, x1) => runAll m1 x1 ops
    | none => none

/-- The operation `op` on `x` leaves the instance `keep` alone: the other
    instance it names can be operated on, it is another object than `x` where
    one is moved into the other, and an instance that is written to or moved
    from is not `keep` (it does not own the buffer of `keep`). -/
def Later.admissible (m : Memory T) (x keep : SaferStringView) : Later T → Bool
  | .destroyed => true
  | .movedFrom _ => true
  | .movedInto e _ =>
    alive m e && !(e.owns keep.toStringView.data.block) && !(sameBuffer e x)
  | .copyAssigned t _ => alive m t
  | .moveAssigned t _ =>
    alive m t && !(t.owns keep.toStringView.data.block) && !(sameBuffer x t)

/-- Every operation of `ops` is admissible when its turn comes, and none comes
    after the destruction of `x`. -/
def admissibleAll [Zero T] :
    Memory T → Option SaferStringView → SaferStringView → List (Later T) → Bool
  | _, _, _, [] => true
  | _, none, _, _ :: _ => false
  | m, some x, keep, op :: ops =>
    op.admissible m x keep &&
      match op.step m x with
      | some (m1, x1) => admissibleAll m1 x1 keep ops
      | none => true

end SaferStringView

/-! ## The diagnostic switch -/

namespace SSV

/-- Access of a class member. -/
inductive Access where
  | isPrivate
  | isPublic
deriving DecidableEq, Repr

/-- The macros `TestSuite.cpp` has defined where it includes the header: its
    line 1, `#define _TEST`. -/
def testSuiteDefines : List String :=
  ["_TEST"]

/-- The access of `storage_` in a translation unit with the macros `defined`:
    the member follows `private:`, and `#ifdef TEST_SAFERSTRINGVIEW` guards a
    `public:` put in front of it. -/
def storageAccess (defined : List String) : Access :=
  if "TEST_SAFERSTRINGVIEW" ∈ defined then .isPublic else .isPrivate

/-- The helper `OwnsData` names `ssv.storage_` from outside the class, so it is
    well-formed exactly when the member is public. -/
def ownsDataWellFormed (defined : List String) : Bool :=
  decide (storageAccess defined = .isPublic)

end SSV

namespace SSV

/-! ## Memory lemmas -/

namespace Memory

variable {T : Type}

theorem load_lt {m : Memory T} {b : Nat} {buf : List T} (h : m.load b = some buf) :
    b < m.blocks.length := by
  unfold load at h
  by_contra hb
  rw [List.getElem?_eq_none (by omega)] at h
  simp at h

theorem load_alloc (m : Memory T) (buf : List T) (b : Nat) :
    (m.alloc buf).1.load b = if b = m.blocks.length then some buf else m.load b := by
  unfold load alloc
  by_cases hb : b < m.blocks.length
  · rw [List.getElem?_append_left hb]
    simp [Nat.ne_of_lt hb]
  · by_cases hb2 : b = m.blocks.length
    · subst hb2
      simp
    · have h1 : m.blocks.length < b := by omega
      simp [hb2, List.getElem?_eq_none, Nat.le_of_lt h1]
      rw [List.getElem?_eq_none (by simp; omega)]

theorem load_free (m : Memory T) (b c : Nat) :
    (m.free c).load b = if b = c then none else m.load b := by
  unfold load free
  by_cases h : b = c
  · subst h
    by_cases hb : b < m.blocks.length
    · simp [List.getElem?_set_self hb]
    · simp [List.getElem?_eq_none, Nat.le_of_not_lt hb]
  · simp [h, List.getElem?_set_ne (Ne.symm h)]

theorem load_store (m : Memory T) (b c : Nat) (buf : List T) :
    (m.store c buf).load b =
      if b = c then (if c < m.blocks.length then some buf else none) else m.load b := by
  unfold load store
  by_cases h : b = c
  · subst h
    by_cases hb : b < m.blocks.length
    · simp [List.getElem?_set_self hb, hb]
    · simp [List.getElem?_eq_none, Nat.le_of_not_lt hb, hb]
  · simp [h, List.getElem?_set_ne (Ne.symm h)]

theorem alloc_snd (m : Memory T) (buf : List T) : (m.alloc buf).2 = m.blocks.length := rfl

theorem alloc_length (m : Memory T) (buf : List T) :
    (m.alloc buf).1.blocks.length = m.blocks.length + 1 := by
  simp [alloc]

theorem store_length (m : Memory T) (c : Nat) (buf : List T) :
    (m.store c buf).blocks.length = m.blocks.length := by
  simp [store]

theorem free_length (m : Memory T) (c : Nat) :
    (m.free c).blocks.length = m.blocks.length := by
  simp [free]

theorem read_congr {m m1 : Memory T} {p : Ptr} (h : m1.load p.block = m.load p.block)
    (n : Nat) : m1.read p n = m.read p n := by
  unfold read
  rw [h]

theorem read_length {m : Memory T} {p : Ptr} {n : Nat} {S : List T}
    (h : m.read p n = some S) : S.length = n := by
  unfold read at h
  split at h
  · split at h
    · cases h
      simp
      omega
    · cases h
  · cases h

theorem read_lt {m : Memory T} {p : Ptr} {n : Nat} {S : List T}
    (h : m.read p n = some S) : p.block < m.blocks.length := by
  unfold read at h
  split at h
  · rename_i buf hb
    exact load_lt hb
  · cases h

theorem read_of_load_append {m : Memory T} {b : Nat} (S rest : List T)
    (h : m.load b = some (S ++ rest)) : m.read ⟨b, 0⟩ S.length = some S := by
  unfold read
  simp [h]

end Memory

end SSV

namespace SSV

namespace BasicString

variable {T : Type}

theorem str_contents_congr (s : BasicString) {m m1 : Memory T}
    (h : m1.load s.block = m.load s.block) : s.contents m1 = s.contents m :=
  Memory.read_congr h _

theorem str_contents_lt {s : BasicString} {m : Memory T} {S : List T}
    (h : s.contents m = some S) : s.block < m.blocks.length :=
  Memory.read_lt h

theorem str_contents_size {s : BasicString} {m : Memory T} {S : List T}
    (h : s.contents m = some S) : S.length = s.size :=
  Memory.read_length h

theorem str_contents_of_load {s : BasicString} {m : Memory T} (S rest : List T)
    (h : m.load s.block = some (S ++ rest)) (hsz : s.size = S.length) :
    s.contents m = some S := by
  have := Memory.read_of_load_append S rest h
  simpa [contents, view, StringView.contents, hsz] using this

/-- Copy construction of a readable string: the copy sits in a new block, holds
    the same units, and every block of the old memory is as it was. -/
theorem str_copy_spec [Zero T] {m : Memory T} {src : BasicString} {S : List T}
    (hs : src.contents m = some S) :
    ∃ m1 c, src.copy m = some (m1, c) ∧ c.block = m.blocks.length ∧
      c.contents m1 = some S ∧ m1.blocks.length = m.blocks.length + 1 ∧
      ∀ b, b < m.blocks.length → m1.load b = m.load b := by
  refine ⟨(m.alloc (S ++ [0])).1, ⟨m.blocks.length, S.length⟩, by simp only [copy, hs]; rfl,
    rfl, ?_, Memory.alloc_length _ _, ?_⟩
  · apply str_contents_of_load S [0] _ rfl
    simp [Memory.load_alloc, Memory.alloc_snd]
  · intro b hb
    simp [Memory.load_alloc, Nat.ne_of_lt hb]

/-- Move construction of a readable string: the new string holds the units,
    its buffer is not the buffer the source is left with, each of the two
    buffers is the source's old one or a new block, and every other block of
    the old memory is as it was. -/
theorem str_move_spec [Zero T] {m : Memory T} {src : BasicString} {S : List T}
    (o : MovedFrom T) (hs : src.contents m = some S) :
    ∃ m1 d src1, src.move m o = some (m1, d, src1) ∧
      d.contents m1 = some S ∧ d.block ≠ src1.block ∧
      (d.block = src.block ∨ d.block = m.blocks.length) ∧
      (src1.block = src.block ∨ src1.block = m.blocks.length) ∧
      m.blocks.length ≤ m1.blocks.length ∧
      src1.block < m1.blocks.length ∧
      ∀ b, b < m.blocks.length → b ≠ src.block → m1.load b = m.load b := by
  have hlt := str_contents_lt hs
  have hsz := str_contents_size hs
  cases hst : o.steal
  · refine ⟨((m.alloc (S ++ [0])).1).store src.block (o.residue ++ [0]),
      ⟨m.blocks.length, S.length⟩, ⟨src.block, o.residue.length⟩,
      by simp only [move, hst, hs]; rfl, ?_, ?_, Or.inr rfl, Or.inl rfl, ?_, ?_, ?_⟩
    · apply str_contents_of_load S [0] _ rfl
      simp [Memory.load_store, Memory.load_alloc, Memory.alloc_snd, Nat.ne_of_gt hlt]
    · simpa [Memory.alloc_snd] using Nat.ne_of_gt hlt
    · simp [Memory.store_length, Memory.alloc_length]
    · simp only [Memory.store_length, Memory.alloc_length]
      omega
    · intro b hb hne
      simp [Memory.load_store, Memory.load_alloc, hne, Nat.ne_of_lt hb]
  · refine ⟨(m.alloc (o.residue ++ [0])).1, src, ⟨m.blocks.length, o.residue.length⟩,
      by simp only [move, hst]; rfl, ?_, ?_, Or.inl rfl, Or.inr rfl, ?_, ?_, ?_⟩
    · rw [← hs]
      apply str_contents_congr
      simp [Memory.load_alloc, Nat.ne_of_lt hlt]
    · simpa [Memory.alloc_snd] using Nat.ne_of_lt hlt
    · simp [Memory.alloc_length]
    · simp [Memory.alloc_length, Memory.alloc_snd]
    · intro b hb _
      simp [Memory.load_alloc, Nat.ne_of_lt hb]

/-- Copy assignment to a live string from a readable one: the destination
    holds the units, the source still does, and every block but the
    destination's is as it was. -/
theorem str_assign_spec [Zero T] {m : Memory T} {dst src : BasicString} {S : List T}
    (hs : src.contents m = some S) (hd : dst.block < m.blocks.length) :
    ∃ m1 d, dst.assign m src = some (m1, d) ∧ d.block = dst.block ∧
      d.contents m1 = some S ∧ src.contents m1 = some S ∧
      m1.blocks.length = m.blocks.length ∧
      ∀ b, b ≠ dst.block → m1.load b = m.load b := by
  have hsz := str_contents_size hs
  refine ⟨m.store dst.block (S ++ [0]), ⟨dst.block, S.length⟩, by simp only [assign, hs],
    rfl, ?_, ?_, Memory.store_length _ _ _, ?_⟩
  · apply str_contents_of_load S [0] _ rfl
    simp [Memory.load_store, hd]
  · by_cases hb : src.block = dst.block
    · apply str_contents_of_load S [0] _ hsz.symm
      simp [Memory.load_store, hb, hd]
    · rw [← hs]
      apply str_contents_congr
      simp [Memory.load_store, hb]
  · intro b hb
    simp [Memory.load_store, hb]

/-- Move assignment to a live string from a readable one: every block but those
    two strings' is as it was and, when the two are different strings, the
    destination holds the units in a buffer that is not the one the source is
    left with. -/
theorem str_moveAssign_spec [Zero T] {m : Memory T} {dst src : BasicString} {S : List T}
    (o : MovedFrom T) (hs : src.contents m = some S) (hd : dst.block < m.blocks.length) :
    ∃ m1 d src1, dst.moveAssign m src o = some (m1, d, src1) ∧
      (dst.block ≠ src.block → d.contents m1 = some S ∧ d.block ≠ src1.block) ∧
      m.blocks.length ≤ m1.blocks.length ∧
      ∀ b, b < m.blocks.length → b ≠ dst.block → b ≠ src.block →
        m1.load b = m.load b := by
  have hlt := str_contents_lt hs
  cases hst : o.steal
  · refine ⟨(m.store dst.block (S ++ [0])).store src.block (o.residue ++ [0]),
      ⟨dst.block, S.length⟩, ⟨src.block, o.residue.length⟩,
      by simp only [moveAssign, hst, hs]; rfl, ?_, ?_, ?_⟩
    · intro hne
      refine ⟨?_, hne⟩
      apply str_contents_of_load S [0] _ rfl
      simp [Memory.load_store, hne, hd]
    · simp [Memory.store_length]
    · intro b _ h1 h2
      simp [Memory.load_store, h1, h2]
  · refine ⟨((m.free dst.block).alloc (o.residue ++ [0])).1, src,
      ⟨((m.free dst.block).alloc (o.residue ++ [0])).2, o.residue.length⟩,
      by simp only [moveAssign, hst]; rfl, ?_, ?_, ?_⟩
    · intro hne
      constructor
      · rw [← hs]
        apply str_contents_congr
        simp [Memory.load_alloc, Memory.load_free, Memory.free_length, Nat.ne_of_lt hlt,
          Ne.symm hne]
      · simpa [Memory.alloc_snd, Memory.free_length] using Nat.ne_of_lt hlt
    · simp [Memory.alloc_length, Memory.free_length]
    · intro b hb h1 _
      simp [Memory.load_alloc, Memory.load_free, Memory.free_length, Nat.ne_of_lt hb, h1]

end BasicString

end SSV

namespace SaferStringView

open SSV

variable {T : Type}

theorem contents_congr (x : SaferStringView) {m m1 : Memory T}
    (h : m1.load x.toStringView.data.block = m.load x.toStringView.data.block) :
    x.contents m1 = x.contents m :=
  Memory.read_congr h _

theorem contents_lt {x : SaferStringView} {m : Memory T} {S : List T}
    (h : x.contents m = some S) : x.toStringView.data.block < m.blocks.length :=
  Memory.read_lt h

theorem contents_size {x : SaferStringView} {m : Memory T} {S : List T}
    (h : x.contents m = some S) : S.length = x.toStringView.size :=
  Memory.read_length h

theorem copyConstruct_spec [Zero T] {m : Memory T} {s : SaferStringView} {S : List T}
    (hs : s.contents m = some S) :
    ∃ m1 c, copyConstruct m s = some (m1, c) ∧ c.OwnsData = s.OwnsData ∧
      c.contents m1 = some S ∧ s.contents m1 = some S ∧
      (s.OwnsData = true → c.toStringView.data.block = m.blocks.length) ∧
      (s.OwnsData = false → m1 = m ∧ c = s) ∧
      m.blocks.length ≤ m1.blocks.length ∧
      ∀ b, b < m.blocks.length → m1.load b = m.load b := by
  rcases s with ⟨s | v⟩
  · obtain ⟨m1, c, he, hb, hc, hl, hf⟩ := BasicString.str_copy_spec (show s.contents m = some S from hs)
    refine ⟨m1, ⟨.str c⟩, by simp only [copyConstruct, he], rfl, hc, ?_, fun _ => hb, ?_, ?_, hf⟩
    · rw [← hs]
      exact contents_congr _ (hf _ (contents_lt hs))
    · intro h
      cases h
    · omega
  · refine ⟨m, ⟨.view v⟩, rfl, rfl, hs, hs, ?_, fun _ => ⟨rfl, rfl⟩, Nat.le_refl _, fun _ _ => rfl⟩
    intro h
    cases h

theorem moveConstruct_spec [Zero T] {m : Memory T} {s : SaferStringView} {S : List T}
    (o : MovedFrom T) (hs : s.contents m = some S) :
    ∃ m1 d s1, moveConstruct m s o = some (m1, d, s1) ∧ d.OwnsData = s.OwnsData ∧
      s1.OwnsData = s.OwnsData ∧ d.contents m1 = some S ∧
      (s.OwnsData = true → d.toStringView.data.block ≠ s1.toStringView.data.block ∧
        s1.toStringView.data.block < m1.blocks.length) ∧
      (s.OwnsData = false → m1 = m ∧ d = s ∧ s1 = s) ∧
      m.blocks.length ≤ m1.blocks.length ∧
      ∀ b, b < m.blocks.length → s.owns b = false → m1.load b = m.load b := by
  rcases s with ⟨s | v⟩
  · obtain ⟨m1, d, s1, he, hc, hne, _, _, hl, hl1, hf⟩ :=
      BasicString.str_move_spec o (show s.contents m = some S from hs)
    refine ⟨m1, ⟨.str d⟩, ⟨.str s1⟩, by simp only [moveConstruct, he], rfl, rfl, hc,
      fun _ => ⟨hne, hl1⟩, ?_, hl, ?_⟩
    · intro h
      cases h
    · intro b hb ho
      apply hf b hb
      intro h
      simp [owns, h] at ho
  · refine ⟨m, ⟨.view v⟩, ⟨.view v⟩, rfl, rfl, rfl, hs, ?_, fun _ => ⟨rfl, rfl, rfl⟩,
      Nat.le_refl _, fun _ _ _ => rfl⟩
    intro h
    cases h

theorem destroy_frame (m : Memory T) (s : SaferStringView) (b : Nat)
    (ho : s.owns b = false) : (s.destroy m).load b = m.load b := by
  rcases s with ⟨s | v⟩
  · have : b ≠ s.block := by
      intro h
      simp [owns, h] at ho
    simp [destroy, BasicString.destroy, Memory.load_free, this]
  · rfl

theorem copyAssign_spec [Zero T] {m : Memory T} {d s : SaferStringView} {S : List T}
    (o : MovedFrom T) (hs : s.contents m = some S) (hd : (d.contents m).isSome = true) :
    ∃ m1 d1, copyAssign m d s o = some (m1, d1) ∧ d1.OwnsData = s.OwnsData ∧
      d1.contents m1 = s.contents m1 ∧
      (s.OwnsData = false → d1 = s) ∧
      ((d.OwnsData = true → s.OwnsData = false →
          s.toStringView.data.block ≠ d.toStringView.data.block) →
        d1.contents m1 = some S ∧ s.contents m1 = some S) ∧
      ∀ b, b < m.blocks.length → d.owns b = false → m1.load b = m.load b := by
  obtain ⟨D, hD⟩ := Option.isSome_iff_exists.mp hd
  have hdlt := contents_lt hD
  rcases d with ⟨d | dv⟩ <;> rcases s with ⟨s | sv⟩
  · obtain ⟨m1, d1, he, hb, hc, hsc, _, hf⟩ :=
      BasicString.str_assign_spec (show s.contents m = some S from hs) hdlt
    have hsc1 : contents ⟨.str s⟩ m1 = some S := hsc
    have hc1 : contents ⟨.str d1⟩ m1 = some S := hc
    refine ⟨m1, ⟨.str d1⟩, by simp only [copyAssign, he], rfl, by rw [hc1, hsc1], ?_,
      fun _ => ⟨hc1, hsc1⟩, ?_⟩
    · intro h
      cases h
    · intro b _ ho
      apply hf
      intro h
      simp [owns, h] at ho
  · refine ⟨d.destroy m, ⟨.view sv⟩, rfl, rfl, rfl, fun _ => rfl, ?_, ?_⟩
    · intro hI2
      have hne := hI2 rfl rfl
      have : contents ⟨.view sv⟩ (d.destroy m) = some S := by
        rw [← hs]
        apply contents_congr
        simp only [BasicString.destroy, Memory.load_free]
        exact if_neg hne
      exact ⟨this, this⟩
    · intro b _ ho
      exact destroy_frame m ⟨.str d⟩ b ho
  · obtain ⟨m1, tmp, he, hb, hc, hl, hf⟩ :=
      BasicString.str_copy_spec (show s.contents m = some S from hs)
    obtain ⟨m2, d1, tmp1, he2, hc2, hne2, _, ht1, hl2, _, hf2⟩ := BasicString.str_move_spec o hc
    have hslt : s.block < m.blocks.length := contents_lt hs
    have hdc : contents ⟨.str d1⟩ (tmp1.destroy m2) = some S := by
      rw [← hc2]
      apply contents_congr
      simp only [BasicString.destroy, Memory.load_free]
      exact if_neg hne2
    have hframe : ∀ b, b < m.blocks.length → (tmp1.destroy m2).load b = m.load b := by
      intro b hb1
      have h1 : b ≠ tmp1.block := by
        rcases ht1 with h | h <;> omega
      simp only [BasicString.destroy, Memory.load_free, if_neg h1]
      rw [hf2 b (by omega) (by omega), hf b hb1]
    have hsc : contents ⟨.str s⟩ (tmp1.destroy m2) = some S := by
      rw [← hs]
      exact contents_congr _ (hframe _ hslt)
    refine ⟨tmp1.destroy m2, ⟨.str d1⟩, by simp only [copyAssign, he, he2], rfl,
      by rw [hdc, hsc], ?_, fun _ => ⟨hdc, hsc⟩, fun b hb1 _ => hframe b hb1⟩
    intro h
    cases h
  · exact ⟨m, ⟨.view sv⟩, rfl, rfl, rfl, fun _ => rfl, fun _ => ⟨hs, hs⟩, fun _ _ _ => rfl⟩

theorem moveAssign_spec [Zero T] {m : Memory T} {d s : SaferStringView} {S : List T}
    (o : MovedFrom T) (hs : s.contents m = some S) (hd : (d.contents m).isSome = true) :
    ∃ m1 d1 s1, moveAssign m d s o = some (m1, d1, s1) ∧ d1.OwnsData = s.OwnsData ∧
      s1.OwnsData = s.OwnsData ∧
      (s.OwnsData = false → d1 = s ∧ s1 = s) ∧
      ((d.OwnsData = true → s.toStringView.data.block ≠ d.toStringView.data.block) →
        d1.contents m1 = some S) ∧
      ∀ b, b < m.blocks.length → d.owns b = false → s.owns b = false →
        m1.load b = m.load b := by
  obtain ⟨D, hD⟩ := Option.isSome_iff_exists.mp hd
  have hdlt := contents_lt hD
  rcases d with ⟨d | dv⟩ <;> rcases s with ⟨s | sv⟩
  · obtain ⟨m1, d1, s1, he, hc, _, hf⟩ :=
      BasicString.str_moveAssign_spec o (show s.contents m = some S from hs) hdlt
    refine ⟨m1, ⟨.str d1⟩, ⟨.str s1⟩, by simp only [moveAssign, he], rfl, rfl, ?_, ?_, ?_⟩
    · intro h
      cases h
    · intro hsep
      exact (hc (Ne.symm (hsep rfl))).1
    · intro b hb ho1 ho2
      apply hf b hb
      · intro h
        simp [owns, h] at ho1
      · intro h
        simp [owns, h] at ho2
  · refine ⟨d.destroy m, ⟨.view sv⟩, ⟨.view sv⟩, rfl, rfl, rfl, fun _ => ⟨rfl, rfl⟩, ?_, ?_⟩
    · intro hsep
      have hne := hsep rfl
      rw [← hs]
      apply contents_congr
      simp only [BasicString.destroy, Memory.load_free]
      exact if_neg hne
    · intro b _ ho _
      exact destroy_frame m ⟨.str d⟩ b ho
  · obtain ⟨m1, d1, s1, he, hc, _, _, _, _, _, hf⟩ :=
      BasicString.str_move_spec o (show s.contents m = some S from hs)
    refine ⟨m1, ⟨.str d1⟩, ⟨.str s1⟩, by simp only [moveAssign, he], rfl, rfl, ?_,
      fun _ => hc, ?_⟩
    · intro h
      cases h
    · intro b hb _ ho
      apply hf b hb
      intro h
      simp [owns, h] at ho
  · exact ⟨m, ⟨.view sv⟩, ⟨.view sv⟩, rfl, rfl, rfl, fun _ => ⟨rfl, rfl⟩, fun _ => hs,
      fun _ _ _ _ => rfl⟩

end SaferStringView

namespace SSV

variable {T : Type}

/-! ## The terminator scan -/

theorem scanTerminator_append [DecidableEq T] [Zero T] (pre rest : List T)
    (h : (0 : T) ∉ pre) : scanTerminator (pre ++ 0 :: rest) = some pre.length := by
  induction pre with
  | nil => simp [scanTerminator]
  | cons x xs ih =>
    have hx : x ≠ 0 := fun e => h (by simp [e])
    have hxs : (0 : T) ∉ xs := fun e => h (by simp [e])
    simp [scanTerminator, hx, ih hxs]

theorem scanTerminator_some [DecidableEq T] [Zero T] {l : List T} {n : Nat}
    (h : scanTerminator l = some n) :
    l[n]? = some 0 ∧ (0 : T) ∉ l.take n ∧ n < l.length := by
  induction l generalizing n with
  | nil => simp [scanTerminator] at h
  | cons x xs ih =>
    by_cases hx : x = 0
    · simp [scanTerminator, hx] at h
      subst h
      simp [hx]
    · simp only [scanTerminator, hx, if_false, Option.map_eq_some'] at h
      obtain ⟨k, hk, rfl⟩ := h
      obtain ⟨h1, h2, h3⟩ := ih hk
      refine ⟨by simpa using h1, ?_, by simpa using h3⟩
      simp only [List.take_succ_cons, List.mem_cons, not_or]
      exact ⟨fun e => hx e.symm, h2⟩

theorem scanTerminator_of_mem [DecidableEq T] [Zero T] {l : List T} (h : (0 : T) ∈ l) :
    ∃ n, scanTerminator l = some n := by
  induction l with
  | nil => simp at h
  | cons x xs ih =>
    by_cases hx : x = 0
    · exact ⟨0, by simp [scanTerminator, hx]⟩
    · have : (0 : T) ∈ xs := by
        rcases List.mem_cons.mp h with e | e
        · exact absurd e.symm hx
        · exact e
      obtain ⟨k, hk⟩ := ih this
      exact ⟨k + 1, by simp [scanTerminator, hx, hk]⟩

theorem scanTerminator_split [DecidableEq T] [Zero T] {l : List T} {n : Nat}
    (h : scanTerminator l = some n) : l = l.take n ++ 0 :: l.drop (n + 1) := by
  obtain ⟨h1, _, h3⟩ := scanTerminator_some h
  have hn : l[n] = 0 := by
    rw [List.getElem?_eq_getElem h3] at h1
    exact Option.some.inj h1
  calc l = l.take n ++ l.drop n := (List.take_append_drop n l).symm
    _ = l.take n ++ l[n] :: l.drop (n + 1) := by rw [List.drop_eq_getElem_cons h3]
    _ = l.take n ++ 0 :: l.drop (n + 1) := by rw [hn]

/-- The scan depends only on the units up to and including the first
    terminator. -/
theorem scanTerminator_of_take_eq [DecidableEq T] [Zero T] {l l1 : List T} {n : Nat}
    (h : scanTerminator l = some n) (ht : l1.take (n + 1) = l.take (n + 1)) :
    scanTerminator l1 = some n := by
  obtain ⟨_, h2, h3⟩ := scanTerminator_some h
  have hsplit := scanTerminator_split h
  have h4 : l.take (n + 1) = l.take n ++ [0] := by
    conv_lhs => rw [hsplit]
    rw [List.take_append_eq_append_take]
    simp [List.length_take, Nat.min_eq_left (Nat.le_of_lt h3)]
  have h5 : l1 = (l.take n ++ [0]) ++ l1.drop (n + 1) := by
    rw [← h4, ← ht]
    exact (List.take_append_drop _ _).symm
  have h6 : l1 = l.take n ++ 0 :: l1.drop (n + 1) := by
    rw [List.append_assoc] at h5
    exact h5
  rw [h6, scanTerminator_append _ _ h2]
  simp [List.length_take, Nat.min_eq_left (Nat.le_of_lt h3)]

end SSV

namespace SaferStringView

open SSV

variable {T : Type}

/-! ## Events -/

theorem Event.apply_length (m : Memory T) (e : Event T) :
    m.blocks.length ≤ (e.apply m).blocks.length := by
  cases e <;> simp [Event.apply, Memory.free_length, Memory.store_length, Memory.alloc_length]

theorem Event.apply_load (m : Memory T) (e : Event T) (b : Nat) (hb : b < m.blocks.length)
    (ht : e.touches b = false) : (e.apply m).load b = m.load b := by
  cases e with
  | free c =>
    have : b ≠ c := fun h => by simp [Event.touches, h] at ht
    simp [Event.apply, Memory.load_free, this]
  | store c buf =>
    have : b ≠ c := fun h => by simp [Event.touches, h] at ht
    simp [Event.apply, Memory.load_store, this]
  | alloc buf =>
    simp [Event.apply, Memory.load_alloc, Nat.ne_of_lt hb]

theorem after_load (evs : List (Event T)) (m : Memory T) (b : Nat)
    (hb : b < m.blocks.length) (ht : ∀ e ∈ evs, e.touches b = false) :
    (after m evs).load b = m.load b := by
  induction evs generalizing m with
  | nil => rfl
  | cons e es ih =>
    have h1 : b < (e.apply m).blocks.length :=
      Nat.lt_of_lt_of_le hb (Event.apply_length m e)
    have h2 := ih (e.apply m) h1 (fun x hx => ht x (List.mem_cons_of_mem _ hx))
    have h3 := Event.apply_load m e b hb (ht e (List.mem_cons_self _ _))
    simp only [after, List.foldl_cons] at h2 ⊢
    rw [h2, h3]

end SaferStringView

namespace SaferStringView

open SSV

variable {T : Type}

theorem owns_eq_false_of_ne {x : SaferStringView} {b : Nat}
    (h : x.toStringView.data.block ≠ b) : x.owns b = false := by
  rcases x with ⟨s | v⟩
  · simpa [owns, toStringView, BasicString.view] using h
  · rfl

theorem ofRvalue_spec [Zero T] {m : Memory T} {str : BasicString} {S : List T}
    (o : MovedFrom T) (hs : str.contents m = some S) :
    ∃ m1 s str1, ofRvalue m str o = some (m1, ⟨.str s⟩, str1) ∧
      s.contents m1 = some S ∧ s.block ≠ str1.block := by
  obtain ⟨m1, d, s1, he, hc, hne, _⟩ := BasicString.str_move_spec o hs
  exact ⟨m1, d, s1, by simp only [ofRvalue, he], hc, hne⟩

theorem ofCStr_spec [DecidableEq T] [Zero T] {m : Memory T} {p : Ptr} {buf : List T}
    {n : Nat} (hb : m.load p.block = some buf)
    (hn : scanTerminator (buf.drop p.off) = some n) :
    ofCStr m p = some ⟨.view ⟨p, n⟩⟩ ∧
      contents ⟨.view ⟨p, n⟩⟩ m = some ((buf.drop p.off).take n) := by
  constructor
  · simp [ofCStr, StringView.ofCStr, charTraitsLength, hb, hn]
  · obtain ⟨_, _, h3⟩ := scanTerminator_some hn
    have hle : p.off + n ≤ buf.length := by
      simp only [List.length_drop] at h3
      omega
    simp [contents, toStringView, StringView.contents, Memory.read, hb, hle]

/-! ## Sequences of later operations -/

theorem str_move_live [Zero T] {m : Memory T} {src : BasicString} {S : List T}
    (o : MovedFrom T) (hs : src.contents m = some S) :
    ∃ m1 d src1, src.move m o = some (m1, d, src1) ∧
      d.contents m1 = some S ∧ src1.contents m1 = some o.residue ∧
      (d.block = src.block ∨ d.block = m.blocks.length) ∧
      (src1.block = src.block ∨ src1.block = m.blocks.length) ∧
      ∀ b, b < m.blocks.length → b ≠ src.block → m1.load b = m.load b := by
  have hlt := BasicString.str_contents_lt hs
  cases hst : o.steal
  · refine ⟨((m.alloc (S ++ [0])).1).store src.block (o.residue ++ [0]),
      ⟨m.blocks.length, S.length⟩, ⟨src.block, o.residue.length⟩,
      by simp only [BasicString.move, hst, hs]; rfl, ?_, ?_, Or.inr rfl, Or.inl rfl, ?_⟩
    · apply BasicString.str_contents_of_load S [0] _ rfl
      simp [Memory.load_store, Memory.load_alloc, Memory.alloc_snd, Nat.ne_of_gt hlt]
    · apply BasicString.str_contents_of_load o.residue [0] _ rfl
      have : src.block < m.blocks.length + 1 := by omega
      simp [Memory.load_store, Memory.alloc_length, this]
    · intro b hb hne
      simp [Memory.load_store, Memory.load_alloc, hne, Nat.ne_of_lt hb]
  · refine ⟨(m.alloc (o.residue ++ [0])).1, src, ⟨m.blocks.length, o.residue.length⟩,
      by simp only [BasicString.move, hst]; rfl, ?_, ?_, Or.inl rfl, Or.inr rfl, ?_⟩
    · rw [← hs]
      apply BasicString.str_contents_congr
      simp [Memory.load_alloc, Nat.ne_of_lt hlt]
    · apply BasicString.str_contents_of_load o.residue [0] _ rfl
      simp [Memory.load_alloc]
    · intro b hb _
      simp [Memory.load_alloc, Nat.ne_of_lt hb]

theorem str_moveAssign_live [Zero T] {m : Memory T} {dst src : BasicString} {S : List T}
    (o : MovedFrom T) (hs : src.contents m = some S) (hd : dst.block < m.blocks.length)
    (hne : dst.block ≠ src.block) :
    ∃ m1 d src1, dst.moveAssign m src o = some (m1, d, src1) ∧
      d.contents m1 = some S ∧ src1.contents m1 = some o.residue ∧
      (d.block = dst.block ∨ d.block = src.block) ∧
      (src1.block = src.block ∨ src1.block = m.blocks.length) ∧
      ∀ b, b < m.blocks.length → b ≠ dst.block → b ≠ src.block →
        m1.load b = m.load b := by
  have hlt := BasicString.str_contents_lt hs
  cases hst : o.steal
  · refine ⟨(m.store dst.block (S ++ [0])).store src.block (o.residue ++ [0]),
      ⟨dst.block, S.length⟩, ⟨src.block, o.residue.length⟩,
      by simp only [BasicString.moveAssign, hst, hs]; rfl, ?_, ?_, Or.inl rfl, Or.inl rfl, ?_⟩
    · apply BasicString.str_contents_of_load S [0] _ rfl
      simp [Memory.load_store, hne, hd]
    · apply BasicString.str_contents_of_load o.residue [0] _ rfl
      simp [Memory.load_store, Memory.store_length, hlt]
    · intro b _ h1 h2
      simp [Memory.load_store, h1, h2]
  · refine ⟨((m.free dst.block).alloc (o.residue ++ [0])).1, src,
      ⟨m.blocks.length, o.residue.length⟩,
      by simp only [BasicString.moveAssign, hst, Memory.alloc_snd, Memory.free_length]; rfl,
      ?_, ?_, Or.inr rfl, Or.inr rfl, ?_⟩
    · rw [← hs]
      apply BasicString.str_contents_congr
      simp [Memory.load_alloc, Memory.load_free, Memory.free_length, Nat.ne_of_lt hlt,
        Ne.symm hne]
    · apply BasicString.str_contents_of_load o.residue [0] _ rfl
      simp [Memory.load_alloc, Memory.free_length]
    · intro b hb h1 _
      simp [Memory.load_alloc, Memory.load_free, Memory.free_length, Nat.ne_of_lt hb, h1]

theorem owns_str (s : BasicString) (b : Nat) :
    owns ⟨.str s⟩ b = false ↔ s.block ≠ b := by
  simp [owns]

theorem alive_str {m : Memory T} {s : BasicString} (h : alive m ⟨.str s⟩ = true) :
    ∃ S, s.contents m = some S :=
  Option.isSome_iff_exists.mp h

theorem alive_of_contents {m : Memory T} {s : BasicString} {S : List T}
    (h : s.contents m = some S) : alive m ⟨.str s⟩ = true := by
  simp [alive, h]

/-- Copy assignment of an owned source to a borrowed destination: the result
    owns a block that did not exist before and holds the units, and every
    block of the old memory is as it was. -/
theorem copyAssign_into_view [Zero T] {m : Memory T} {s : BasicString} {S : List T}
    (dv : StringView) (o : MovedFrom T) (hs : s.contents m = some S) :
    ∃ m1 s1, copyAssign m ⟨.view dv⟩ ⟨.str s⟩ o = some (m1, ⟨.str s1⟩) ∧
      s1.contents m1 = some S ∧ m.blocks.length ≤ s1.block ∧
      ∀ b, b < m.blocks.length → m1.load b = m.load b := by
  obtain ⟨m1, tmp, he, hb, hc, hl, hf⟩ := BasicString.str_copy_spec hs
  obtain ⟨m2, d1, tmp1, he2, hc2, hne2, hd1, ht1, _, _, hf2⟩ := BasicString.str_move_spec o hc
  refine ⟨tmp1.destroy m2, d1, by simp only [copyAssign, he, he2], ?_, ?_, ?_⟩
  · rw [← hc2]
    apply BasicString.str_contents_congr
    simp only [BasicString.destroy, Memory.load_free]
    exact if_neg hne2
  · rcases hd1 with h | h <;> omega
  · intro b hb1
    have h1 : b ≠ tmp1.block := by
      rcases ht1 with h | h <;> omega
    simp only [BasicString.destroy, Memory.load_free, if_neg h1]
    rw [hf2 b (by omega) (by omega), hf b hb1]

/-- Copy assignment from an owned source holding `S` to another object: the
    result is owned, its buffer is not the source's, and both read `S`. -/
theorem copyAssign_owned [Zero T] {m : Memory T} {d : SaferStringView} {b : BasicString}
    {S : List T} (o : MovedFrom T) (hs : contents ⟨.str b⟩ m = some S)
    (hd : alive m d = true) (hne : d.owns b.block = false) :
    ∃ m1 c, copyAssign m d ⟨.str b⟩ o = some (m1, c) ∧ c.OwnsData = true ∧
      c.toStringView.data.block ≠ b.block ∧ c.contents m1 = some S ∧
      contents ⟨.str b⟩ m1 = some S := by
  have hs1 : b.contents m = some S := hs
  have hblt := BasicString.str_contents_lt hs1
  rcases d with ⟨ds | dv⟩
  · obtain ⟨D, hD⟩ := alive_str hd
    obtain ⟨m1, d1, he, hb, hc, hsc, _, _⟩ :=
      BasicString.str_assign_spec hs1 (BasicString.str_contents_lt hD)
    refine ⟨m1, ⟨.str d1⟩, by simp only [copyAssign, he], rfl, ?_, hc, hsc⟩
    have := (owns_str ds b.block).mp hne
    simpa [toStringView, BasicString.view, hb] using this
  · obtain ⟨m1, s1, he, hc, hge, hf⟩ := copyAssign_into_view dv o hs1
    refine ⟨m1, ⟨.str s1⟩, he, rfl, ?_, hc, ?_⟩
    · have : s1.block ≠ b.block := by omega
      simpa [toStringView, BasicString.view] using this
    · rw [← hs]
      exact contents_congr _ (hf _ hblt)

theorem moveConstruct_live [Zero T] {m : Memory T} {x : SaferStringView} (o : MovedFrom T)
    (hx : alive m x = true) (kb : Nat) (hkb : kb < m.blocks.length)
    (hsep : x.owns kb = false) :
    ∃ m1 d x1, moveConstruct m x o = some (m1, d, x1) ∧ m1.load kb = m.load kb ∧
      alive m1 x1 = true ∧ x1.owns kb = false := by
  rcases x with ⟨s | v⟩
  · obtain ⟨S, hS⟩ := alive_str hx
    have hne := (owns_str s kb).mp hsep
    obtain ⟨m1, d, s1, he, _, hr, _, hb1, hf⟩ := str_move_live o hS
    refine ⟨m1, ⟨.str d⟩, ⟨.str s1⟩, by simp only [moveConstruct, he],
      hf kb hkb (Ne.symm hne), alive_of_contents hr, ?_⟩
    rw [owns_str]
    rcases hb1 with h | h <;> omega
  · exact ⟨m, ⟨.view v⟩, ⟨.view v⟩, rfl, rfl, rfl, rfl⟩

theorem copyAssign_live [Zero T] {m : Memory T} {x t : SaferStringView} (o : MovedFrom T)
    (hx : alive m x = true) (ht : alive m t = true) (kb : Nat) (hkb : kb < m.blocks.length)
    (hsep : x.owns kb = false) :
    ∃ m1 x1, copyAssign m x t o = some (m1, x1) ∧ m1.load kb = m.load kb ∧
      alive m1 x1 = true ∧ x1.owns kb = false := by
  rcases x with ⟨xs | xv⟩ <;> rcases t with ⟨ts | tv⟩
  · obtain ⟨X, hX⟩ := alive_str hx
    obtain ⟨S, hS⟩ := alive_str ht
    have hne := (owns_str xs kb).mp hsep
    obtain ⟨m1, d1, he, hb, hc, _, _, hf⟩ :=
      BasicString.str_assign_spec hS (BasicString.str_contents_lt hX)
    refine ⟨m1, ⟨.str d1⟩, by simp only [copyAssign, he], hf kb (Ne.symm hne),
      alive_of_contents hc, ?_⟩
    rw [owns_str, hb]
    exact hne
  · exact ⟨xs.destroy m, ⟨.view tv⟩, rfl, destroy_frame m ⟨.str xs⟩ kb hsep, rfl, rfl⟩
  · obtain ⟨S, hS⟩ := alive_str ht
    obtain ⟨m1, s1, he, hc, hge, hf⟩ := copyAssign_into_view xv o hS
    refine ⟨m1, ⟨.str s1⟩, he, hf kb hkb, alive_of_contents hc, ?_⟩
    rw [owns_str]
    omega
  · exact ⟨m, ⟨.view tv⟩, rfl, rfl, rfl, rfl⟩

theorem moveAssign_live [Zero T] {m : Memory T} {d s : SaferStringView} (o : MovedFrom T)
    (hd : alive m d = true) (hs : alive m s = true) (hne : sameBuffer d s = false)
    (kb : Nat) (hkb : kb < m.blocks.length) (hdk : d.owns kb = false)
    (hsk : s.owns kb = false) :
    ∃ m1 d1 s1, moveAssign m d s o = some (m1, d1, s1) ∧ m1.load kb = m.load kb ∧
      alive m1 d1 = true ∧ d1.owns kb = false ∧ alive m1 s1 = true ∧
      s1.owns kb = false := by
  rcases d with ⟨ds | dv⟩ <;> rcases s with ⟨ss | sv⟩
  · obtain ⟨D, hD⟩ := alive_str hd
    obtain ⟨S, hS⟩ := alive_str hs
    have h1 := (owns_str ds kb).mp hdk
    have h2 := (owns_str ss kb).mp hsk
    have h3 : ds.block ≠ ss.block := by simpa [sameBuffer] using hne
    obtain ⟨m1, d1, s1, he, hc, hr, hb, hb1, hf⟩ :=
      str_moveAssign_live o hS (BasicString.str_contents_lt hD) h3
    refine ⟨m1, ⟨.str d1⟩, ⟨.str s1⟩, by simp only [moveAssign, he],
      hf kb hkb (Ne.symm h1) (Ne.symm h2), alive_of_contents hc, ?_, alive_of_contents hr, ?_⟩
    · rw [owns_str]
      rcases hb with h | h <;> omega
    · rw [owns_str]
      rcases hb1 with h | h <;> omega
  · exact ⟨ds.destroy m, ⟨.view sv⟩, ⟨.view sv⟩, rfl, destroy_frame m ⟨.str ds⟩ kb hdk,
      rfl, rfl, rfl, rfl⟩
  · obtain ⟨S, hS⟩ := alive_str hs
    have h2 := (owns_str ss kb).mp hsk
    obtain ⟨m1, d1, s1, he, hc, hr, hb, hb1, hf⟩ := str_move_live o hS
    refine ⟨m1, ⟨.str d1⟩, ⟨.str s1⟩, by simp only [moveAssign, he],
      hf kb hkb (Ne.symm h2), alive_of_contents hc, ?_, alive_of_contents hr, ?_⟩
    · rw [owns_str]
      rcases hb with h | h <;> omega
    · rw [owns_str]
      rcases hb1 with h | h <;> omega
  · exact ⟨m, ⟨.view sv⟩, ⟨.view sv⟩, rfl, rfl, rfl, rfl, rfl, rfl⟩

/-- One admissible operation on `x` returns, leaves the readable instance
    `keep` reading what it read, and leaves `x`, when it still exists, able to
    be operated on and not owning the buffer of `keep`. -/
theorem step_keeps [Zero T] {m : Memory T} {x keep : SaferStringView} {S : List T}
    (hx : alive m x = true) (hk : keep.contents m = some S)
    (hsep : x.owns keep.toStringView.data.block = false) (op : Later T)
    (hop : op.admissible m x keep = true) :
    ∃ m1 x1, op.step m x = some (m1, x1) ∧ keep.contents m1 = some S ∧
      ∀ y, x1 = some y →
        alive m1 y = true ∧ y.owns keep.toStringView.data.block = false := by
  have hklt := contents_lt hk
  cases op with
  | destroyed =>
    refine ⟨x.destroy m, none, rfl, ?_, ?_⟩
    · rw [← hk]
      exact contents_congr _ (destroy_frame m x _ hsep)
    · intro y hy
      cases hy
  | movedFrom o =>
    obtain ⟨m1, d, x1, he, hf, ha, ho⟩ := moveConstruct_live o hx _ hklt hsep
    refine ⟨m1, some x1, by simp [Later.step, he], ?_, ?_⟩
    · rw [← hk]
      exact contents_congr _ hf
    · intro y hy
      cases hy
      exact ⟨ha, ho⟩
  | movedInto e o =>
    simp only [Later.admissible, Bool.and_eq_true, Bool.not_eq_true'] at hop
    obtain ⟨m1, d1, x1, he, hf, _, _, ha, ho⟩ :=
      moveAssign_live o hop.1.1 hx hop.2 _ hklt hop.1.2 hsep
    refine ⟨m1, some x1, by simp [Later.step, he], ?_, ?_⟩
    · rw [← hk]
      exact contents_congr _ hf
    · intro y hy
      cases hy
      exact ⟨ha, ho⟩
  | copyAssigned t o =>
    simp only [Later.admissible] at hop
    obtain ⟨m1, x1, he, hf, ha, ho⟩ := copyAssign_live o hx hop _ hklt hsep
    refine ⟨m1, some x1, by simp [Later.step, he], ?_, ?_⟩
    · rw [← hk]
      exact contents_congr _ hf
    · intro y hy
      cases hy
      exact ⟨ha, ho⟩
  | moveAssigned t o =>
    simp only [Later.admissible, Bool.and_eq_true, Bool.not_eq_true'] at hop
    obtain ⟨m1, x1, t1, he, hf, ha, ho, _, _⟩ :=
      moveAssign_live o hx hop.1.1 hop.2 _ hklt hsep hop.1.2
    refine ⟨m1, some x1, by simp [Later.step, he], ?_, ?_⟩
    · rw [← hk]
      exact contents_congr _ hf
    · intro y hy
      cases hy
      exact ⟨ha, ho⟩

/-- Any admissible sequence of operations on `x` returns and leaves the
    readable instance `keep` reading what it read. -/
theorem runAll_keeps [Zero T] (ops : List (Later T)) {m : Memory T}
    {x keep : SaferStringView} {S : List T}
    (hx : alive m x = true) (hk : keep.contents m = some S)
    (hsep : x.owns keep.toStringView.data.block = false)
    (hops : admissibleAll m (some x) keep ops = true) :
    ∃ m2, runAll m (some x) ops = some m2 ∧ keep.contents m2 = some S := by
  induction ops generalizing m x with
  | nil => exact ⟨m, rfl, hk⟩
  | cons op ops ih =>
    simp only [admissibleAll, Bool.and_eq_true] at hops
    obtain ⟨m1, x1, he, hk1, hx1⟩ := step_keeps hx hk hsep op hops.1
    have hrest := hops.2
    rw [he] at hrest
    simp only [runAll, he]
    cases x1 with
    | none =>
      cases ops with
      | nil => exact ⟨m1, rfl, hk1⟩
      | cons op2 ops2 => simp [admissibleAll] at hrest
    | some y =>
      obtain ⟨ha, ho⟩ := hx1 y rfl
      exact ih ha hk1 ho hrest

/-! ## The claims -/

/-- C1. The alternative a freshly constructed instance holds is fixed by the
    construction form: for every sequence `S`, the lvalue-string form, the
    view form and the raw-pointer form give the borrowed alternative and the
    rvalue-string form gives the owned one, so `OwnsData` is true exactly for
    the rvalue-string form. The rvalue form returns for every readable string
    holding `S`, the pointer form for every buffer in which a terminator
    follows `S`. -/
theorem ownership_by_construction_form [DecidableEq T] [Zero T] (S : List T) :
    (∀ str : BasicString, (ofLvalue str).OwnsData = false) ∧
    (∀ (m : Memory T) (str : BasicString) (o : MovedFrom T), str.contents m = some S →
      ∃ m1 x str1, ofRvalue m str o = some (m1, x, str1) ∧ x.OwnsData = true) ∧
    (∀ v : StringView, (ofView v).OwnsData = false) ∧
    (∀ (m : Memory T) (p : Ptr) (buf rest : List T), m.load p.block = some buf →
      buf.drop p.off = S ++ 0 :: rest →
      ∃ x, ofCStr m p = some x ∧ x.OwnsData = false) ∧
    (∀ (m : Memory T) (str : BasicString) (o : MovedFrom T) m1 x str1,
      ofRvalue m str o = some (m1, x, str1) → x.OwnsData = true) ∧
    (∀ (m : Memory T) (p : Ptr) x, ofCStr m p = some x → x.OwnsData = false) := by
  refine ⟨fun _ => rfl, ?_, fun _ => rfl, ?_, ?_, ?_⟩
  · intro m str o hs
    obtain ⟨m1, s, str1, he, _, _⟩ := ofRvalue_spec o hs
    exact ⟨m1, ⟨.str s⟩, str1, he, rfl⟩
  · intro m p buf rest hb hd
    have h0 : (0 : T) ∈ buf.drop p.off := by
      rw [hd]
      simp
    obtain ⟨n, hn⟩ := scanTerminator_of_mem h0
    exact ⟨_, (ofCStr_spec hb hn).1, rfl⟩
  · intro m str o m1 x str1 h
    unfold ofRvalue at h
    split at h
    · cases h
      rfl
    · cases h
  · intro m p x h
    unfold ofCStr at h
    split at h
    · cases h
      rfl
    · cases h

/-- C2 (as amended). For every sequence `S` of code units, the view converted
    from a freshly constructed instance has exactly the contents `S` and the
    length of `S`: for an lvalue string holding `S`, for an rvalue string
    holding `S`, for a view over `S`, and for a raw pointer to `S` followed by
    a terminator when `S` itself contains no terminator unit. -/
theorem fresh_view_yields_input [DecidableEq T] [Zero T] (S : List T) :
    (∀ (m : Memory T) (str : BasicString), str.contents m = some S →
      (ofLvalue str).contents m = some S ∧ (ofLvalue str).toStringView.size = S.length) ∧
    (∀ (m : Memory T) (str : BasicString) (o : MovedFrom T), str.contents m = some S →
      ∃ m1 x str1, ofRvalue m str o = some (m1, x, str1) ∧
        x.contents m1 = some S ∧ x.toStringView.size = S.length) ∧
    (∀ (m : Memory T) (v : StringView), v.contents m = some S →
      (ofView v).contents m = some S ∧ (ofView v).toStringView.size = S.length) ∧
    (∀ (m : Memory T) (p : Ptr) (buf rest : List T), m.load p.block = some buf →
      buf.drop p.off = S ++ 0 :: rest → (0 : T) ∉ S →
      ∃ x, ofCStr m p = some x ∧
        x.contents m = some S ∧ x.toStringView.size = S.length) := by
  refine ⟨?_, ?_, ?_, ?_⟩
  · intro m str hs
    exact ⟨hs, (BasicString.str_contents_size hs).symm⟩
  · intro m str o hs
    obtain ⟨m1, s, str1, he, hc, _⟩ := ofRvalue_spec o hs
    exact ⟨m1, ⟨.str s⟩, str1, he, hc, (BasicString.str_contents_size hc).symm⟩
  · intro m v hs
    exact ⟨hs, (Memory.read_length hs).symm⟩
  · intro m p buf rest hb hd h0
    have hn : scanTerminator (buf.drop p.off) = some S.length := by
      rw [hd]
      exact scanTerminator_append S rest h0
    obtain ⟨h1, h2⟩ := ofCStr_spec hb hn
    refine ⟨_, h1, ?_, rfl⟩
    rw [h2, hd]
    simp

/-- C3. An instance constructed from an rvalue string holding `S` owns its
    buffer: the buffer is not the one the moved-from argument is left with,
    and after any sequence of events on the storage that neither releases nor
    overwrites the instance's own buffer the converted view still reads `S`. -/
theorem rvalue_instance_independent [Zero T] (m : Memory T) (str : BasicString)
    (o : MovedFrom T) (S : List T) (hs : str.contents m = some S) :
    ∃ m1 x str1, ofRvalue m str o = some (m1, x, str1) ∧ x.OwnsData = true ∧
      x.contents m1 = some S ∧ x.owns str1.block = false ∧
      ∀ evs : List (Event T),
        (∀ e ∈ evs, e.touches x.toStringView.data.block = false) →
        x.contents (after m1 evs) = some S := by
  obtain ⟨m1, s, str1, he, hc, hne⟩ := ofRvalue_spec o hs
  refine ⟨m1, ⟨.str s⟩, str1, he, rfl, hc, ?_, ?_⟩
  · simpa [owns] using hne
  · intro evs hev
    have hc1 : contents ⟨.str s⟩ m1 = some S := hc
    rw [← hc1]
    exact contents_congr _ (after_load evs m1 _ (contents_lt hc1) hev)

/-- C4. Copy construction and copy assignment duplicate the alternative of the
    source: for a readable source `s` with contents `S` and a readable
    destination `d` of either alternative, where a borrowed `s` does not refer
    to the buffer `d` owns (invariant I2: the storage `s` refers to outlives
    the assignment), the result holds the alternative of `s`, reads `S`, is
    `s` itself when `s` is borrowed, and `s` still reads `S`. -/
theorem copy_duplicates_alternative [Zero T] (m : Memory T) (d s : SaferStringView)
    (o : MovedFrom T) (S : List T) (hs : s.contents m = some S)
    (hd : (d.contents m).isSome = true)
    (hI2 : d.OwnsData = true → s.OwnsData = false →
      s.toStringView.data.block ≠ d.toStringView.data.block) :
    (∃ m1 c, copyConstruct m s = some (m1, c) ∧ c.OwnsData = s.OwnsData ∧
      c.contents m1 = some S ∧ s.contents m1 = some S ∧ (s.OwnsData = false → c = s)) ∧
    (∃ m1 d1, copyAssign m d s o = some (m1, d1) ∧ d1.OwnsData = s.OwnsData ∧
      d1.contents m1 = some S ∧ s.contents m1 = some S ∧ (s.OwnsData = false → d1 = s)) := by
  constructor
  · obtain ⟨m1, c, he, ho, hc, hsc, _, hb, _⟩ := copyConstruct_spec hs
    exact ⟨m1, c, he, ho, hc, hsc, fun h => (hb h).2⟩
  · obtain ⟨m1, d1, he, ho, _, hb, hc, _⟩ := copyAssign_spec o hs hd
    exact ⟨m1, d1, he, ho, (hc hI2).1, (hc hI2).2, hb⟩

/-- C5. Copy independence, for copy construction and copy assignment alike.
    The copy of a borrowed instance has the same descriptor (same start
    pointer, same length), whatever the destination of the assignment held.
    For an owned instance holding `S` both operations return, and every copy
    `c` that either makes (the assignment to any destination that can be
    operated on and is another object than the source) is owned, its buffer
    is a different block, both read `S`, and after any sequence of later
    operations on one of the two (being moved from, reassignment by copy or
    by move, and at last destruction) the other still reads `S`. -/
theorem copy_independence [Zero T] (m : Memory T) (b : BasicString) (v : StringView)
    (d : SaferStringView) (o : MovedFrom T) (S : List T) :
    (∃ c, copyConstruct m ⟨.view v⟩ = some (m, c) ∧
      c.toStringView.data = v.data ∧ c.toStringView.size = v.size) ∧
    (∃ m1 c, copyAssign m d ⟨.view v⟩ o = some (m1, c) ∧
      c.toStringView.data = v.data ∧ c.toStringView.size = v.size) ∧
    (contents ⟨.str b⟩ m = some S → alive m d = true → d.owns b.block = false →
      (∃ m1 c, copyConstruct m ⟨.str b⟩ = some (m1, c)) ∧
      (∃ m1 c, copyAssign m d ⟨.str b⟩ o = some (m1, c)) ∧
      ∀ m1 c, (copyConstruct m ⟨.str b⟩ = some (m1, c) ∨
          copyAssign m d ⟨.str b⟩ o = some (m1, c)) →
        c.OwnsData = true ∧ c.toStringView.data.block ≠ b.block ∧
        c.contents m1 = some S ∧ contents ⟨.str b⟩ m1 = some S ∧
        (∀ ops : List (Later T), admissibleAll m1 (some ⟨.str b⟩) c ops = true →
          ∃ m2, runAll m1 (some ⟨.str b⟩) ops = some m2 ∧ c.contents m2 = some S) ∧
        (∀ ops : List (Later T), admissibleAll m1 (some c) ⟨.str b⟩ ops = true →
          ∃ m2, runAll m1 (some c) ops = some m2 ∧ contents ⟨.str b⟩ m2 = some S)) := by
  refine ⟨⟨⟨.view v⟩, rfl, rfl, rfl⟩, ?_, ?_⟩
  · rcases d with ⟨ds | dv⟩
    · exact ⟨ds.destroy m, ⟨.view v⟩, rfl, rfl, rfl⟩
    · exact ⟨m, ⟨.view v⟩, rfl, rfl, rfl⟩
  · intro hs hd hne
    obtain ⟨m1, c1, he1, ho1, hc1, hsc1, hb1, _, _, _⟩ := copyConstruct_spec hs
    obtain ⟨m2, c2, he2, ho2, hne2, hc2, hsc2⟩ := copyAssign_owned o hs hd hne
    have hblt : b.block < m.blocks.length := contents_lt hs
    have hne1 : c1.toStringView.data.block ≠ b.block := by
      have := hb1 rfl
      omega
    have key : ∀ (mm : Memory T) (c : SaferStringView), c.OwnsData = true →
        c.toStringView.data.block ≠ b.block → c.contents mm = some S →
        contents ⟨.str b⟩ mm = some S →
        c.OwnsData = true ∧ c.toStringView.data.block ≠ b.block ∧
        c.contents mm = some S ∧ contents ⟨.str b⟩ mm = some S ∧
        (∀ ops : List (Later T), admissibleAll mm (some ⟨.str b⟩) c ops = true →
          ∃ m2, runAll mm (some ⟨.str b⟩) ops = some m2 ∧ c.contents m2 = some S) ∧
        (∀ ops : List (Later T), admissibleAll mm (some c) ⟨.str b⟩ ops = true →
          ∃ m2, runAll mm (some c) ops = some m2 ∧ contents ⟨.str b⟩ m2 = some S) := by
      intro mm c ho hn hc hsc
      refine ⟨ho, hn, hc, hsc, ?_, ?_⟩
      · intro ops hops
        exact runAll_keeps ops (alive_of_contents hsc) hc ((owns_str b _).mpr hn.symm) hops
      · intro ops hops
        have hca : alive mm c = true := by
          rcases c with ⟨cs | cv⟩
          · exact alive_of_contents hc
          · rfl
        exact runAll_keeps ops hca hsc (owns_eq_false_of_ne hn) hops
    refine ⟨⟨m1, c1, he1⟩, ⟨m2, c2, he2⟩, ?_⟩
    intro mm c hmade
    rcases hmade with h | h
    · rw [he1] at h
      cases h
      exact key m1 c1 ho1 hne1 hc1 hsc1
    · rw [he2] at h
      cases h
      exact key m2 c2 ho2 hne2 hc2 hsc2

/-- C6. Move transfer: for a readable source `s` with contents `S`, the
    move-constructed instance, and the result of move-assigning `s` to a
    readable destination `d` of either alternative whose own buffer is not the
    storage of `s`, holds the alternative `s` held and reads `S`, with the
    length of `S`. -/
theorem move_transfers [Zero T] (m : Memory T) (d s : SaferStringView)
    (o : MovedFrom T) (S : List T) (hs : s.contents m = some S)
    (hd : (d.contents m).isSome = true)
    (hsep : d.OwnsData = true →
      s.toStringView.data.block ≠ d.toStringView.data.block) :
    (∃ m1 d1 s1, moveConstruct m s o = some (m1, d1, s1) ∧ d1.OwnsData = s.OwnsData ∧
      d1.contents m1 = some S ∧ d1.toStringView.size = S.length) ∧
    (∃ m1 d1 s1, moveAssign m d s o = some (m1, d1, s1) ∧ d1.OwnsData = s.OwnsData ∧
      d1.contents m1 = some S ∧ d1.toStringView.size = S.length) := by
  constructor
  · obtain ⟨m1, d1, s1, he, ho, _, hc, _⟩ := moveConstruct_spec o hs
    exact ⟨m1, d1, s1, he, ho, hc, (contents_size hc).symm⟩
  · obtain ⟨m1, d1, s1, he, ho, _, _, hc, _⟩ := moveAssign_spec o hs hd
    exact ⟨m1, d1, s1, he, ho, hc hsep, (contents_size (hc hsep)).symm⟩

/-- C7. The conversion selects its result by the active alternative and copies
    nothing: a borrowed instance with descriptor `v` converts to `v` itself,
    so `SaferStringView(v)` converts back to `v`; an owned instance with
    buffer `b` converts to the view that starts at the buffer of `b` and has
    the size of `b`, which in every memory reads what `b` holds. The
    conversion is a function of the instance alone: it takes no storage and
    returns none, and the instance is its argument, not a result. -/
theorem conversion_selects_alternative (v : StringView) (b : BasicString) :
    toStringView ⟨.view v⟩ = v ∧ (ofView v).toStringView = v ∧
    toStringView ⟨.str b⟩ = ⟨⟨b.block, 0⟩, b.size⟩ ∧
    toStringView ⟨.str b⟩ = b.view ∧
    ∀ (m : Memory T), contents ⟨.str b⟩ m = b.contents m :=
  ⟨rfl, rfl, rfl, rfl, fun _ => rfl⟩

/-- C8. For a buffer that holds a terminator at or after the unit `p` points
    to, construction from `p` gives the borrowed instance whose view starts at
    `p` and whose length `n` is the index of the first terminator: the unit
    at `n` is the terminator, none of the `n` units before it is, the view
    reads exactly those `n` units, and the result is the same for every buffer
    with the same first `n + 1` units (nothing after the terminator is read). -/
theorem ofCStr_stops_at_first_terminator [DecidableEq T] [Zero T] (m : Memory T) (p : Ptr)
    (buf : List T) (hb : m.load p.block = some buf) (h0 : (0 : T) ∈ buf.drop p.off) :
    ∃ n, ofCStr m p = some ⟨.view ⟨p, n⟩⟩ ∧
      (buf.drop p.off)[n]? = some 0 ∧ (0 : T) ∉ (buf.drop p.off).take n ∧
      contents ⟨.view ⟨p, n⟩⟩ m = some ((buf.drop p.off).take n) ∧
      ∀ (m1 : Memory T) (buf1 : List T), m1.load p.block = some buf1 →
        (buf1.drop p.off).take (n + 1) = (buf.drop p.off).take (n + 1) →
        ofCStr m1 p = some ⟨.view ⟨p, n⟩⟩ := by
  obtain ⟨n, hn⟩ := scanTerminator_of_mem h0
  obtain ⟨h1, h2, _⟩ := scanTerminator_some hn
  obtain ⟨h4, h5⟩ := ofCStr_spec hb hn
  refine ⟨n, h4, h1, h2, h5, ?_⟩
  intro m1 buf1 hb1 ht
  exact (ofCStr_spec hb1 (scanTerminator_of_take_eq hn ht)).1

/-- C9. Moving out of a borrowed instance does not change it: after a move
    construction or a move assignment from the instance that holds the view
    `v`, the source still holds the view `v`, and memory and destination are
    those of the copy construction, respectively copy assignment. -/
theorem move_from_borrowed_is_copy [Zero T] (m : Memory T) (d : SaferStringView)
    (v : StringView) (o : MovedFrom T) :
    moveConstruct m ⟨.view v⟩ o = some (m, ⟨.view v⟩, ⟨.view v⟩) ∧
    copyConstruct m ⟨.view v⟩ = some (m, ⟨.view v⟩) ∧
    ∃ m1 d1, moveAssign m d ⟨.view v⟩ o = some (m1, d1, ⟨.view v⟩) ∧
      copyAssign m d ⟨.view v⟩ o = some (m1, d1) := by
  refine ⟨rfl, rfl, ?_⟩
  rcases d with ⟨ds | dv⟩
  · exact ⟨ds.destroy m, ⟨.view v⟩, rfl, rfl⟩
  · exact ⟨m, ⟨.view v⟩, rfl, rfl⟩

end SaferStringView

namespace SSV

/-- C10. The switch is not enabled: `TestSuite.cpp` defines `_TEST`, the header
    tests `TEST_SAFERSTRINGVIEW`, so in the test's translation unit `storage_`
    is private and `OwnsData` is ill-formed; with the header's macro defined
    the member is public. -/
theorem testSuite_switch_mismatch :
    storageAccess testSuiteDefines = Access.isPrivate ∧
    ownsDataWellFormed testSuiteDefines = false ∧
    storageAccess ["TEST_SAFERSTRINGVIEW"] = Access.isPublic ∧
    ownsDataWellFormed ["TEST_SAFERSTRINGVIEW"] = true := by
  decide

end SSV

namespace SaferStringView

open SSV

/-! ## The claims at concrete inputs -/

/-- Witness of C1 at the empty sequence: the four forms over the buffer that
    holds only the terminator. -/
theorem ownership_by_construction_form_witness :
    (ofLvalue ⟨0, 0⟩).OwnsData = false ∧
    (∃ m1 x str1, ofRvalue (⟨[some [0]]⟩ : Memory Nat) ⟨0, 0⟩ ⟨true, []⟩ = some (m1, x, str1) ∧
      x.OwnsData = true) ∧
    (ofView ⟨⟨0, 0⟩, 0⟩).OwnsData = false ∧
    (∃ x, ofCStr (⟨[some [0]]⟩ : Memory Nat) ⟨0, 0⟩ = some x ∧ x.OwnsData = false) :=
  ⟨(ownership_by_construction_form ([] : List Nat)).1 _,
    (ownership_by_construction_form ([] : List Nat)).2.1 _ _ _ (by decide),
    (ownership_by_construction_form ([] : List Nat)).2.2.1 _,
    (ownership_by_construction_form ([] : List Nat)).2.2.2.1 _ _ [0] [] (by decide)
      (by decide)⟩

/-- Counterexample to C2 as stated: for `S = [1, 0, 2]` the buffer `S`
    followed by a terminator is `[1, 0, 2, 0]`; construction from the pointer
    to it gives the view of length 1 with contents `[1]`, not `S`, while the
    view form over the same three units reads `S`. -/
theorem ofCStr_embedded_terminator :
    (⟨[some [1, 0, 2, 0]]⟩ : Memory Nat).load 0 = some ([1, 0, 2] ++ [0]) ∧
    ofCStr (⟨[some [1, 0, 2, 0]]⟩ : Memory Nat) ⟨0, 0⟩ = some ⟨.view ⟨⟨0, 0⟩, 1⟩⟩ ∧
    contents ⟨.view ⟨⟨0, 0⟩, 1⟩⟩ (⟨[some [1, 0, 2, 0]]⟩ : Memory Nat) = some [1] ∧
    contents ⟨.view ⟨⟨0, 0⟩, 1⟩⟩ (⟨[some [1, 0, 2, 0]]⟩ : Memory Nat) ≠ some [1, 0, 2] ∧
    (ofView ⟨⟨0, 0⟩, 3⟩).contents (⟨[some [1, 0, 2, 0]]⟩ : Memory Nat) = some [1, 0, 2] := by
  decide

/-- Witness of C2 at `S = [72, 105]`, stored with its terminator in block 0. -/
theorem fresh_view_yields_input_witness :
    ((ofLvalue ⟨0, 2⟩).contents (⟨[some [72, 105, 0]]⟩ : Memory Nat) = some [72, 105] ∧
      (ofLvalue ⟨0, 2⟩).toStringView.size = 2) ∧
    (∃ m1 x str1,
      ofRvalue (⟨[some [72, 105, 0]]⟩ : Memory Nat) ⟨0, 2⟩ ⟨false, []⟩ = some (m1, x, str1) ∧
      x.contents m1 = some [72, 105] ∧ x.toStringView.size = 2) ∧
    ((ofView ⟨⟨0, 0⟩, 2⟩).contents (⟨[some [72, 105, 0]]⟩ : Memory Nat) = some [72, 105] ∧
      (ofView ⟨⟨0, 0⟩, 2⟩).toStringView.size = 2) ∧
    (∃ x, ofCStr (⟨[some [72, 105, 0]]⟩ : Memory Nat) ⟨0, 0⟩ = some x ∧
      x.contents (⟨[some [72, 105, 0]]⟩ : Memory Nat) = some [72, 105] ∧
      x.toStringView.size = 2) :=
  ⟨(fresh_view_yields_input [72, 105]).1 _ _ (by decide),
    (fresh_view_yields_input [72, 105]).2.1 _ _ _ (by decide),
    (fresh_view_yields_input [72, 105]).2.2.1 _ _ (by decide),
    (fresh_view_yields_input [72, 105]).2.2.2 _ _ [72, 105, 0] [] (by decide) (by decide)
      (by decide)⟩

/-- Witness of C3: the instance built from the temporary `[52, 50]` still reads
    it after the moved-from temporary is released, a block is obtained and
    another block is overwritten. -/
theorem rvalue_instance_independent_witness :
    BasicString.contents ⟨0, 2⟩ (⟨[some [52, 50, 0]]⟩ : Memory Nat) = some [52, 50] ∧
    ∃ m1 x str1,
      ofRvalue (⟨[some [52, 50, 0]]⟩ : Memory Nat) ⟨0, 2⟩ ⟨true, []⟩ = some (m1, x, str1) ∧
      x.contents (after m1 [Event.free str1.block, Event.alloc [7], Event.store 2 [9, 9]]) =
        some [52, 50] := by
  refine ⟨by decide, ?_⟩
  obtain ⟨m1, x, str1, he, _, _, _, hev⟩ :=
    rvalue_instance_independent (⟨[some [52, 50, 0]]⟩ : Memory Nat) ⟨0, 2⟩ ⟨true, []⟩
      [52, 50] (by decide)
  refine ⟨m1, x, str1, he, hev _ ?_⟩
  have hval : ofRvalue (⟨[some [52, 50, 0]]⟩ : Memory Nat) ⟨0, 2⟩ ⟨true, []⟩ =
      some (⟨[some [52, 50, 0], some [0]]⟩, ⟨.str ⟨0, 2⟩⟩, ⟨1, 0⟩) := by decide
  rw [hval] at he
  cases he
  decide

/-- Witness of C4: an owned destination, a source that borrows another block. -/
theorem copy_duplicates_alternative_witness :
    contents ⟨.view ⟨⟨1, 0⟩, 2⟩⟩ (⟨[some [97, 0], some [98, 99, 0]]⟩ : Memory Nat) =
      some [98, 99] ∧
    ((∃ m1 c, copyConstruct (⟨[some [97, 0], some [98, 99, 0]]⟩ : Memory Nat)
        ⟨.view ⟨⟨1, 0⟩, 2⟩⟩ = some (m1, c) ∧
      c.OwnsData = OwnsData ⟨.view ⟨⟨1, 0⟩, 2⟩⟩ ∧ c.contents m1 = some [98, 99] ∧
      contents ⟨.view ⟨⟨1, 0⟩, 2⟩⟩ m1 = some [98, 99] ∧
      (OwnsData ⟨.view ⟨⟨1, 0⟩, 2⟩⟩ = false → c = ⟨.view ⟨⟨1, 0⟩, 2⟩⟩)) ∧
    (∃ m1 d1, copyAssign (⟨[some [97, 0], some [98, 99, 0]]⟩ : Memory Nat)
        ⟨.str ⟨0, 1⟩⟩ ⟨.view ⟨⟨1, 0⟩, 2⟩⟩ ⟨true, []⟩ = some (m1, d1) ∧
      d1.OwnsData = OwnsData ⟨.view ⟨⟨1, 0⟩, 2⟩⟩ ∧ d1.contents m1 = some [98, 99] ∧
      contents ⟨.view ⟨⟨1, 0⟩, 2⟩⟩ m1 = some [98, 99] ∧
      (OwnsData ⟨.view ⟨⟨1, 0⟩, 2⟩⟩ = false → d1 = ⟨.view ⟨⟨1, 0⟩, 2⟩⟩))) :=
  ⟨by decide,
    copy_duplicates_alternative (⟨[some [97, 0], some [98, 99, 0]]⟩ : Memory Nat)
      ⟨.str ⟨0, 1⟩⟩ ⟨.view ⟨⟨1, 0⟩, 2⟩⟩ ⟨true, []⟩ [98, 99] (by decide) (by decide)
      (by decide)⟩

/-- Witness of C5: the owned `[67]` is copied by construction and by
    assignment to another owned instance. Each copy still reads `[67]` after
    the source is moved from, reassigned from a view and destroyed, and the
    source still reads `[67]` after the copy is move-assigned from another
    instance and destroyed. -/
theorem copy_independence_witness :
    contents ⟨.str ⟨0, 1⟩⟩ (⟨[some [67, 0], some [68, 0], some [69, 0]]⟩ : Memory Nat) =
      some [67] ∧
    (∃ m1 c,
      copyConstruct (⟨[some [67, 0], some [68, 0], some [69, 0]]⟩ : Memory Nat)
        ⟨.str ⟨0, 1⟩⟩ = some (m1, c) ∧
      c.toStringView.data.block ≠ 0 ∧
      (∃ m2, runAll m1 (some ⟨.str ⟨0, 1⟩⟩)
          [Later.movedFrom ⟨true, []⟩, Later.copyAssigned ⟨.view ⟨⟨2, 0⟩, 1⟩⟩ ⟨true, []⟩,
            Later.destroyed] = some m2 ∧
        c.contents m2 = some [67])) ∧
    (∃ m1 c,
      copyAssign (⟨[some [67, 0], some [68, 0], some [69, 0]]⟩ : Memory Nat)
        ⟨.str ⟨1, 1⟩⟩ ⟨.str ⟨0, 1⟩⟩ ⟨true, []⟩ = some (m1, c) ∧
      c.toStringView.data.block ≠ 0 ∧
      (∃ m2, runAll m1 (some ⟨.str ⟨0, 1⟩⟩)
          [Later.movedFrom ⟨true, []⟩, Later.copyAssigned ⟨.view ⟨⟨2, 0⟩, 1⟩⟩ ⟨true, []⟩,
            Later.destroyed] = some m2 ∧
        c.contents m2 = some [67]) ∧
      (∃ m2, runAll m1 (some c)
          [Later.moveAssigned ⟨.str ⟨2, 1⟩⟩ ⟨false, []⟩, Later.destroyed] = some m2 ∧
        contents ⟨.str ⟨0, 1⟩⟩ m2 = some [67])) := by
  obtain ⟨hex1, hex2, hall⟩ :=
    (copy_independence (⟨[some [67, 0], some [68, 0], some [69, 0]]⟩ : Memory Nat) ⟨0, 1⟩
      ⟨⟨2, 0⟩, 1⟩ ⟨.str ⟨1, 1⟩⟩ ⟨true, []⟩ [67]).2.2 (by decide) (by decide) (by decide)
  refine ⟨by decide, ?_, ?_⟩
  · have hval : copyConstruct (⟨[some [67, 0], some [68, 0], some [69, 0]]⟩ : Memory Nat)
        ⟨.str ⟨0, 1⟩⟩ =
        some (⟨[some [67, 0], some [68, 0], some [69, 0], some [67, 0]]⟩, ⟨.str ⟨3, 1⟩⟩) := by
      decide
    obtain ⟨_, hne, _, _, h1, _⟩ := hall _ _ (Or.inl hval)
    exact ⟨_, _, hval, hne, h1 _ (by decide)⟩
  · have hval : copyAssign (⟨[some [67, 0], some [68, 0], some [69, 0]]⟩ : Memory Nat)
        ⟨.str ⟨1, 1⟩⟩ ⟨.str ⟨0, 1⟩⟩ ⟨true, []⟩ =
        some (⟨[some [67, 0], some [67, 0], some [69, 0]]⟩, ⟨.str ⟨1, 1⟩⟩) := by
      decide
    obtain ⟨_, hne, _, _, h1, h2⟩ := hall _ _ (Or.inr hval)
    exact ⟨_, _, hval, hne, h1 _ (by decide), h2 _ (by decide)⟩

/-- Witness of C6: two owned instances with their own buffers. -/
theorem move_transfers_witness :
    contents ⟨.str ⟨1, 2⟩⟩ (⟨[some [97, 0], some [98, 99, 0]]⟩ : Memory Nat) =
      some [98, 99] ∧
    ((∃ m1 d1 s1, moveConstruct (⟨[some [97, 0], some [98, 99, 0]]⟩ : Memory Nat)
        ⟨.str ⟨1, 2⟩⟩ ⟨false, []⟩ = some (m1, d1, s1) ∧
      d1.OwnsData = OwnsData ⟨.str ⟨1, 2⟩⟩ ∧ d1.contents m1 = some [98, 99] ∧
      d1.toStringView.size = 2) ∧
    (∃ m1 d1 s1, moveAssign (⟨[some [97, 0], some [98, 99, 0]]⟩ : Memory Nat)
        ⟨.str ⟨0, 1⟩⟩ ⟨.str ⟨1, 2⟩⟩ ⟨false, []⟩ = some (m1, d1, s1) ∧
      d1.OwnsData = OwnsData ⟨.str ⟨1, 2⟩⟩ ∧ d1.contents m1 = some [98, 99] ∧
      d1.toStringView.size = 2)) :=
  ⟨by decide,
    move_transfers (⟨[some [97, 0], some [98, 99, 0]]⟩ : Memory Nat)
      ⟨.str ⟨0, 1⟩⟩ ⟨.str ⟨1, 2⟩⟩ ⟨false, []⟩ [98, 99] (by decide) (by decide) (by decide)⟩

/-- Witness of C8: in `[72, 105, 0, 88, 0]` the scan stops at index 2. -/
theorem ofCStr_stops_at_first_terminator_witness :
    (0 : Nat) ∈ List.drop 0 [72, 105, 0, 88, 0] ∧
    ∃ n, ofCStr (⟨[some [72, 105, 0, 88, 0]]⟩ : Memory Nat) ⟨0, 0⟩ =
        some ⟨.view ⟨⟨0, 0⟩, n⟩⟩ ∧
      (List.drop 0 [72, 105, 0, 88, 0])[n]? = some 0 ∧
      (0 : Nat) ∉ (List.drop 0 [72, 105, 0, 88, 0]).take n ∧
      contents ⟨.view ⟨⟨0, 0⟩, n⟩⟩ (⟨[some [72, 105, 0, 88, 0]]⟩ : Memory Nat) =
        some ((List.drop 0 [72, 105, 0, 88, 0]).take n) ∧
      ∀ (m1 : Memory Nat) (buf1 : List Nat), m1.load 0 = some buf1 →
        (buf1.drop 0).take (n + 1) = (List.drop 0 [72, 105, 0, 88, 0]).take (n + 1) →
        ofCStr m1 ⟨0, 0⟩ = some ⟨.view ⟨⟨0, 0⟩, n⟩⟩ :=
  ⟨by decide,
    ofCStr_stops_at_first_terminator (⟨[some [72, 105, 0, 88, 0]]⟩ : Memory Nat) ⟨0, 0⟩
      [72, 105, 0, 88, 0] (by decide) (by decide)⟩

/-- Invariant I2 is needed in C4 and C6: when the source borrows the very
    buffer the destination owns, the assignment destroys that buffer and both
    instances are left with a view of storage that is gone. -/
theorem assign_from_view_of_own_buffer :
    contents ⟨.view ⟨⟨0, 0⟩, 3⟩⟩ (⟨[some [97, 98, 99, 0]]⟩ : Memory Nat) = some [97, 98, 99] ∧
    copyAssign (⟨[some [97, 98, 99, 0]]⟩ : Memory Nat) ⟨.str ⟨0, 3⟩⟩ ⟨.view ⟨⟨0, 0⟩, 3⟩⟩
      ⟨true, []⟩ = some (⟨[none]⟩, ⟨.view ⟨⟨0, 0⟩, 3⟩⟩) ∧
    moveAssign (⟨[some [97, 98, 99, 0]]⟩ : Memory Nat) ⟨.str ⟨0, 3⟩⟩ ⟨.view ⟨⟨0, 0⟩, 3⟩⟩
      ⟨true, []⟩ = some (⟨[none]⟩, ⟨.view ⟨⟨0, 0⟩, 3⟩⟩, ⟨.view ⟨⟨0, 0⟩, 3⟩⟩) ∧
    contents ⟨.view ⟨⟨0, 0⟩, 3⟩⟩ (⟨[none]⟩ : Memory Nat) = none := by
  decide

end SaferStringView
